import Mathlib

/-!
Verification of the recitation trainer (benbjohnson/recite).

Strings are embedded as lists of Unicode code points (`Str := List Nat`),
matching the Go source, which iterates strings rune by rune
(`for _, r := range s`).  The character classifiers below model the ASCII
fragment of Go's `unicode.IsLetter` / `unicode.IsDigit` / `unicode.ToLower` /
`unicode.IsSpace`; every string occurring in the repository (lyrics lines,
test vectors, key tokens) is ASCII, where the two agree.
-/

namespace Recite

/-- Code-point string, as iterated by Go's range-over-string. -/
abbrev Str := List Nat

/-- Convert a Lean string literal to its code points (for concrete inputs). -/
def strC (s : String) : Str := s.data.map Char.toNat

/-- ASCII/Latin-1 fragment of Go's unicode.IsSpace (tab, LF, VT, FF, CR,
space, NEL, NBSP). -/
def isSpace (r : Nat) : Bool :=
  r = 9 || r = 10 || r = 11 || r = 12 || r = 13 || r = 32 || r = 133 || r = 160

/-- ASCII fragment of Go's unicode.IsLetter. -/
def isLetter (r : Nat) : Bool :=
  (65 ≤ r && r ≤ 90) || (97 ≤ r && r ≤ 122)

/-- ASCII fragment of Go's unicode.IsDigit. -/
def isDigit (r : Nat) : Bool :=
  48 ≤ r && r ≤ 57

/-- ASCII fragment of Go's unicode.ToLower. -/
def toLower (r : Nat) : Nat :=
  if 65 ≤ r && r ≤ 90 then r + 32 else r

/-- Go strings.TrimSpace: drop leading and trailing whitespace. -/
def trimSpace (s : Str) : Str :=
  ((s.dropWhile isSpace).reverse.dropWhile isSpace).reverse

/-- Accumulator loop for `fields`; `acc` is the current word, reversed. -/
def fieldsAux : Str → Str → List Str
  | [], acc => if acc.isEmpty then [] else [acc.reverse]
  | c :: rest, acc =>
    if isSpace c then
      if acc.isEmpty then fieldsAux rest [] else acc.reverse :: fieldsAux rest []
    else
      fieldsAux rest (c :: acc)

/-- Go strings.Fields: split around runs of whitespace; no empty words. -/
def fields (s : Str) : List Str := fieldsAux s []

/-- From src/main.go `normalize`: keep every letter and digit, lowercased, in
order; drop everything else. -/
def normalize (s : Str) : Str :=
  s.filterMap (fun r => if isLetter r || isDigit r then some (toLower r) else none)

/-- From src/main.go `isComment`: the trimmed line starts with the marker
character. -/
def isComment (line : Str) : Bool :=
  match trimSpace line with
  | 35 :: _ => true
  | _ => false

/-- From src/main.go `headerText`: trim, strip one leading marker character
(Go strings.TrimPrefix with the hash mark), trim again. -/
def headerText (line : Str) : Str :=
  match trimSpace line with
  | 35 :: rest => trimSpace rest
  | other => trimSpace other

/-- From src/main.go `getNextWordHint`.  Result `none` models the Go runtime
fault: when `input` is non-empty, does not end in a space character, and
contains no word (whitespace only), the Go code computes
`wordIdx = len(inputWords) - 1 = -1` and evaluates `expectedWords[-1]`,
an index-out-of-range panic. -/
def getNextWordHint (input expected : Str) : Option Str :=
  let expectedWords := fields expected
  let inputWords := fields input
  if input.length > 0 && !(input.getLast? == some 32) then
    match inputWords.length with
    | 0 => none
    | n + 1 => some (expectedWords.getD n [])
  else
    some (expectedWords.getD inputWords.length [])

/-- Stated from claim C8's own words, for comparison with the source
function: the first branch is guarded by "does not end in whitespace" (any
whitespace) and out-of-range lookups — including index −1 — return the
empty string. -/
def claimedNextWordHint (input expected : Str) : Str :=
  let expectedWords := fields expected
  let inputWords := fields input
  if !input.isEmpty && !(input.getLast?.any isSpace) then
    let idx : Int := (inputWords.length : Int) - 1
    if 0 ≤ idx ∧ idx < (expectedWords.length : Int) then expectedWords.getD idx.toNat [] else []
  else
    if inputWords.length < expectedWords.length then expectedWords.getD inputWords.length [] else []

/-- Modelled from the spec: the fuzzy word matcher `wordsMatch`, whose
definition is missing from src (only main_test.go TestWordsMatch refers to
it).  Two words match if their normalizations are equal, or one
normalization is the other with a trailing letter g appended and the
shorter normalized form is long enough.  The spec prose states the guard
as length at least 3, but the test vectors it cites — and main_test.go
TestWordsMatch, which is repository code — reject sin/sing and win/wing
(shorter length 3) while accepting stayin/staying, so the guard the tests
force is length at least 4 on the shorter normalized form. -/
def wordsMatch (a b : Str) : Bool :=
  let na := normalize a
  let nb := normalize b
  (na == nb) ||
    ((nb == na ++ [103]) && decide (4 ≤ na.length)) ||
    ((na == nb ++ [103]) && decide (4 ≤ nb.length))

/-- Modelled from the spec: the line matcher `linesMatch`, whose definition
is missing from src (only main_test.go TestLinesMatch refers to it).  Both
lines are split into whitespace-delimited words; the counts must agree and
every positional pair must satisfy `wordsMatch`. -/
def linesMatch (input expected : Str) : Bool :=
  let iw := fields input
  let ew := fields expected
  (iw.length == ew.length) && (List.zip iw ew).all (fun p => wordsMatch p.1 p.2)

/-- From src/main.go: a named section over the line sequence,
half-open range. -/
structure Section where
  name : Str
  startIdx : Nat
  endIdx : Nat
deriving DecidableEq

/-- Loop of src/main.go `parseSections`: `i` is the index of the next line,
`cur` the currently open section (endIdx still the Go zero value 0). -/
def parseSectionsAux : Nat → Option Section → List Str → List Section
  | i, cur, [] =>
    match cur with
    | none => []
    | some c => [{ c with endIdx := i }]
  | i, cur, line :: rest =>
    if isComment line then
      match cur with
      | some c =>
        { c with endIdx := i } ::
          parseSectionsAux (i + 1) (some { name := headerText line, startIdx := i, endIdx := 0 }) rest
      | none =>
        parseSectionsAux (i + 1) (some { name := headerText line, startIdx := i, endIdx := 0 }) rest
    else
      match cur with
      | none =>
        parseSectionsAux (i + 1) (some { name := strC "Intro", startIdx := 0, endIdx := 0 }) rest
      | some c => parseSectionsAux (i + 1) (some c) rest

/-- From src/main.go `parseSections`. -/
def parseSections (lines : List Str) : List Section :=
  parseSectionsAux 0 none lines

/-- chainB a b secs: the sections form a contiguous chain of half-open
ranges starting at a and ending at b (each range starts where the previous
one ended). -/
def chainB : Nat → Nat → List Section → Bool
  | a, b, [] => a == b
  | a, b, s :: rest => (s.startIdx == a) && decide (s.startIdx ≤ s.endIdx) && chainB s.endIdx b rest

/-- Song metadata from the YAML front matter of src/main.go. -/
structure Metadata where
  title : Str
  artist : Str
deriving DecidableEq

/-- Interaction states of src/main.go. -/
inductive GoState where
  | intro
  | sectionSelect
  | typing
  | result
deriving DecidableEq

/-- Input events (bubbletea key messages) consumed by src/main.go Update. -/
inductive Key where
  | ctrlC
  | esc
  | enter
  | tab
  | backspace
  | space
  | runes (rs : Str)
deriving DecidableEq

/-- The model of src/main.go. -/
structure Model where
  meta : Metadata
  allLines : List Str
  lines : List Str
  lineIndices : List Nat
  sections : List Section
  selectedSection : Int
  currentLine : Nat
  input : Str
  results : List Bool
  state : GoState
  hint : Str
  hintLevel : Nat
deriving DecidableEq

/-- Fuel-indexed loop of src/main.go `skipComments`: advance currentLine
past comment lines, marking each as correct.  Go indexes
`m.lines[m.currentLine]` under the loop guard, so `getD` is exact.  The
fuel only bounds the iteration count; `skipCommentsLoop` supplies enough
fuel for the loop to run to completion, so the fuel never changes the
result. -/
def skipCommentsLoopFuel : Nat → Model → Model
  | 0, m => m
  | fuel + 1, m =>
    if m.currentLine < m.lines.length ∧ isComment (m.lines.getD m.currentLine []) = true then
      skipCommentsLoopFuel fuel
        { m with results := m.results.set m.currentLine true, currentLine := m.currentLine + 1 }
    else m

/-- The while loop of src/main.go `skipComments`. -/
def skipCommentsLoop (m : Model) : Model :=
  skipCommentsLoopFuel (m.lines.length - m.currentLine) m

/-- From src/main.go `skipComments`: run the loop, then enter the result
state if the cursor has reached the end. -/
def skipComments (m : Model) : Model :=
  if (skipCommentsLoop m).lines.length ≤ (skipCommentsLoop m).currentLine then
    { skipCommentsLoop m with state := GoState.result }
  else skipCommentsLoop m

/-- From src/main.go `initialModel`: the intro screen is skipped when no
metadata is set. -/
def initialModel (md : Metadata) (lines : List Str) : Model :=
  { meta := md
    allLines := lines
    lines := lines
    lineIndices := []
    sections := parseSections lines
    selectedSection := -1
    currentLine := 0
    input := []
    results := List.replicate lines.length false
    state := if md.title = [] ∧ md.artist = [] then .sectionSelect else .intro
    hint := []
    hintLevel := 0 }

/-- From src/main.go `selectSection`: narrow the practice set to one
section (or all, for a negative or out-of-range index), reset cursor,
input, and results. -/
def selectSection (m : Model) (sectionIdx : Int) : Model :=
  let m1 := { m with selectedSection := sectionIdx }
  if sectionIdx < 0 ∨ (m1.sections.length : Int) ≤ sectionIdx then
    { m1 with
      lines := m1.allLines
      lineIndices := []
      results := List.replicate m1.allLines.length false
      currentLine := 0
      input := [] }
  else
    let sec := m1.sections.getD sectionIdx.toNat { name := [], startIdx := 0, endIdx := 0 }
    let newLines := (m1.allLines.take sec.endIdx).drop sec.startIdx
    { m1 with
      lines := newLines
      lineIndices := (List.range newLines.length).map (fun j => sec.startIdx + j)
      results := List.replicate newLines.length false
      currentLine := 0
      input := [] }

/-- From src/main.go `handleIntroInput`. -/
def handleIntroInput (m : Model) (k : Key) : Model :=
  match k with
  | .enter | .space => { m with state := .sectionSelect }
  | _ => m

/-- From src/main.go `handleSectionSelectInput`.  Key a or A selects all
sections; a digit 1-9 selects the corresponding section when it exists. -/
def handleSectionSelectInput (m : Model) (k : Key) : Model :=
  match k with
  | .runes rs =>
    if rs = strC "a" ∨ rs = strC "A" then
      skipComments { selectSection m (-1) with state := GoState.typing }
    else if rs.length = 1 ∧ 49 ≤ rs.getD 0 0 ∧ rs.getD 0 0 ≤ 57 then
      if rs.getD 0 0 - 49 < m.sections.length then
        skipComments { selectSection m ((rs.getD 0 0 - 49 : Nat) : Int) with state := GoState.typing }
      else m
    else m
  | _ => m

/-- From src/main.go `handleTypingInput`.  Enter stores the match decision
of the source snapshot (equality of normalized whole lines), advances and
skips comments; tab is the two-level hint ratchet; backspace, runes and
space edit the input and clear the hint.  Result `none` propagates the
runtime fault of `getNextWordHint`. -/
def handleTypingInput (m : Model) (k : Key) : Option Model :=
  match k with
  | .enter =>
    let decision := normalize m.input == normalize (m.lines.getD m.currentLine [])
    let m1 := { m with results := m.results.set m.currentLine decision }
    some (skipComments
      { m1 with
        currentLine := m1.currentLine + 1
        input := []
        hint := []
        hintLevel := 0 })
  | .tab =>
    if m.hintLevel = 0 then
      match getNextWordHint m.input (m.lines.getD m.currentLine []) with
      | none => none
      | some h => some { m with hint := h, hintLevel := 1 }
    else if m.hintLevel = 1 then
      some { m with hint := m.lines.getD m.currentLine [], hintLevel := 2 }
    else some m
  | .backspace =>
    some { m with
      input := if 0 < m.input.length then m.input.dropLast else m.input
      hint := []
      hintLevel := 0 }
  | .runes rs => some { m with input := m.input ++ rs, hint := [], hintLevel := 0 }
  | .space => some { m with input := m.input ++ [32], hint := [], hintLevel := 0 }
  | _ => some m

/-- From src/main.go `handleResultInput`: y restarts (fresh cursor, input
and result vector, back to typing, skip leading comments); n quits (model
unchanged here, the program exits). -/
def handleResultInput (m : Model) (k : Key) : Model :=
  match k with
  | .runes rs =>
    if rs = strC "y" ∨ rs = strC "Y" then
      skipComments
        { m with
          currentLine := 0
          input := []
          results := List.replicate m.lines.length false
          state := .typing }
    else m
  | _ => m

/-- From src/main.go `Update`: dispatch a key message on the current
state. -/
def update (m : Model) (k : Key) : Option Model :=
  match m.state with
  | .intro => some (handleIntroInput m k)
  | .sectionSelect => some (handleSectionSelectInput m k)
  | .typing => handleTypingInput m k
  | .result => some (handleResultInput m k)

/-- Deliver a list of key events in order; `none` once any step faults. -/
def run (m : Model) : List Key → Option Model
  | [] => some m
  | k :: ks =>
    match update m k with
    | none => none
    | some m2 => run m2 ks

/-- Score computation of the result view in src/main.go: the pair
(correct, total) counted over non-comment lines.  The source prints the two
numbers with Sprintf; no division is performed. -/
def viewScore : List Str → List Bool → Nat × Nat
  | [], _ => (0, 0)
  | l :: ls, rs =>
    let rest := viewScore ls rs.tail
    if isComment l then rest
    else (if rs.headD false then rest.1 + 1 else rest.1, rest.2 + 1)

/-- Mark k entries of a boolean vector true, starting at index c (the
result-vector effect of the skipComments loop). -/
def markRun : List Bool → Nat → Nat → List Bool
  | rs, _, 0 => rs
  | rs, c, k + 1 => markRun (rs.set c true) (c + 1) k

/-- Number of consecutive comment lines starting at index c. -/
def leadComments (ls : List Str) (c : Nat) : Nat :=
  ((ls.drop c).takeWhile isComment).length

/-- State-machine invariant of src/main.go, for any reachable model built
from a non-empty line sequence: the cursor stays within the practice set,
reaches its length exactly in the result state, never rests on a comment
line while typing, and every comment line behind it is marked correct. -/
def Inv (m : Model) : Prop :=
  m.allLines ≠ [] ∧
  m.results.length = m.lines.length ∧
  m.currentLine ≤ m.lines.length ∧
  (m.currentLine = m.lines.length ↔ m.state = GoState.result) ∧
  ((m.state = GoState.intro ∨ m.state = GoState.sectionSelect) →
    (m.currentLine = 0 ∧ m.lines = m.allLines)) ∧
  (m.state = GoState.typing → isComment (m.lines.getD m.currentLine []) = false) ∧
  (∀ i, i < m.currentLine → isComment (m.lines.getD i []) = true →
    m.results.getD i false = true)

/-- Concrete practice set used by witness theorems. -/
def demoLines : List Str := [strC "# Verse", strC "Hello"]

/-- Concrete key sequence used by witness theorems. -/
def demoKeys : List Key := [Key.runes (strC "a"), Key.runes (strC "Hello"), Key.enter]

/-- Concrete initial model used by witness theorems. -/
def demoInit : Model := initialModel { title := [], artist := [] } demoLines

/-- The model reached by demoKeys from demoInit. -/
def demoM2 : Model := (run demoInit demoKeys).getD demoInit

/-- Practice/memory mode of src/unnamed/part_002. -/
inductive Mode where
  | practice
  | memory
deriving DecidableEq

/-- Interaction states of src/unnamed/part_002. -/
inductive GoState2 where
  | modeSelect
  | sectionSelect
  | typing
  | result
deriving DecidableEq

/-- The model of src/unnamed/part_002 (mode-select variant: sections, a
mode field, no metadata, no hints). -/
structure Model2 where
  allLines : List Str
  lines : List Str
  lineIndices : List Nat
  sections : List Section
  selectedSection : Int
  currentLine : Nat
  input : Str
  results : List Bool
  state : GoState2
  mode : Mode
deriving DecidableEq

/-- From src/unnamed/part_002 `initialModel` (mode defaults to the Go zero
value, practice). -/
def initialModel2 (lines : List Str) : Model2 :=
  { allLines := lines
    lines := lines
    lineIndices := []
    sections := parseSections lines
    selectedSection := -1
    currentLine := 0
    input := []
    results := List.replicate lines.length false
    state := GoState2.modeSelect
    mode := Mode.practice }

/-- Fuel-indexed loop of src/unnamed/part_002 `skipComments`. -/
def skipCommentsLoopFuel2 : Nat → Model2 → Model2
  | 0, m => m
  | fuel + 1, m =>
    if m.currentLine < m.lines.length ∧ isComment (m.lines.getD m.currentLine []) = true then
      skipCommentsLoopFuel2 fuel
        { m with results := m.results.set m.currentLine true, currentLine := m.currentLine + 1 }
    else m

/-- From src/unnamed/part_002 `skipComments`. -/
def skipComments2 (m : Model2) : Model2 :=
  if (skipCommentsLoopFuel2 (m.lines.length - m.currentLine) m).lines.length
      ≤ (skipCommentsLoopFuel2 (m.lines.length - m.currentLine) m).currentLine then
    { skipCommentsLoopFuel2 (m.lines.length - m.currentLine) m with state := GoState2.result }
  else skipCommentsLoopFuel2 (m.lines.length - m.currentLine) m

/-- From src/unnamed/part_002 `selectSection`. -/
def selectSection2 (m : Model2) (sectionIdx : Int) : Model2 :=
  let m1 := { m with selectedSection := sectionIdx }
  if sectionIdx < 0 ∨ (m1.sections.length : Int) ≤ sectionIdx then
    { m1 with
      lines := m1.allLines
      lineIndices := []
      results := List.replicate m1.allLines.length false
      currentLine := 0
      input := [] }
  else
    let sec := m1.sections.getD sectionIdx.toNat { name := [], startIdx := 0, endIdx := 0 }
    let newLines := (m1.allLines.take sec.endIdx).drop sec.startIdx
    { m1 with
      lines := newLines
      lineIndices := (List.range newLines.length).map (fun j => sec.startIdx + j)
      results := List.replicate newLines.length false
      currentLine := 0
      input := [] }

/-- From src/unnamed/part_002 `handleModeSelectInput`: key 1 selects
practice mode, key 2 memory mode; both advance to section selection. -/
def handleModeSelectInput2 (m : Model2) (k : Key) : Model2 :=
  match k with
  | .runes rs =>
    if rs = strC "1" then { m with mode := Mode.practice, state := GoState2.sectionSelect }
    else if rs = strC "2" then { m with mode := Mode.memory, state := GoState2.sectionSelect }
    else m
  | _ => m

/-- From src/unnamed/part_002 `handleSectionSelectInput`. -/
def handleSectionSelectInput2 (m : Model2) (k : Key) : Model2 :=
  match k with
  | .runes rs =>
    if rs = strC "a" ∨ rs = strC "A" then
      skipComments2 { selectSection2 m (-1) with state := GoState2.typing }
    else if rs.length = 1 ∧ 49 ≤ rs.getD 0 0 ∧ rs.getD 0 0 ≤ 57 then
      if rs.getD 0 0 - 49 < m.sections.length then
        skipComments2 { selectSection2 m ((rs.getD 0 0 - 49 : Nat) : Int) with state := GoState2.typing }
      else m
    else m
  | _ => m

/-- From src/unnamed/part_002 `handleTypingInput` (no hint system, so no
tab case; enter compares normalized whole lines). -/
def handleTypingInput2 (m : Model2) (k : Key) : Model2 :=
  match k with
  | .enter =>
    let decision := normalize m.input == normalize (m.lines.getD m.currentLine [])
    skipComments2
      { m with
        results := m.results.set m.currentLine decision
        currentLine := m.currentLine + 1
        input := [] }
  | .backspace =>
    { m with input := if 0 < m.input.length then m.input.dropLast else m.input }
  | .runes rs => { m with input := m.input ++ rs }
  | .space => { m with input := m.input ++ [32] }
  | _ => m

/-- From src/unnamed/part_002 `handleResultInput`. -/
def handleResultInput2 (m : Model2) (k : Key) : Model2 :=
  match k with
  | .runes rs =>
    if rs = strC "y" ∨ rs = strC "Y" then
      skipComments2
        { m with
          currentLine := 0
          input := []
          results := List.replicate m.lines.length false
          state := GoState2.typing }
    else m
  | _ => m

/-- From src/unnamed/part_002 `Update`. -/
def update2 (m : Model2) (k : Key) : Model2 :=
  match m.state with
  | GoState2.modeSelect => handleModeSelectInput2 m k
  | GoState2.sectionSelect => handleSectionSelectInput2 m k
  | GoState2.typing => handleTypingInput2 m k
  | GoState2.result => handleResultInput2 m k

/-- Deliver a list of key events in order to the part_002 machine. -/
def run2 (m : Model2) : List Key → Model2
  | [] => m
  | k :: ks => run2 (update2 m k) ks

/-- Two part_002 models agree on every field except the mode. -/
def Agree (x y : Model2) : Prop :=
  x.allLines = y.allLines ∧ x.lines = y.lines ∧ x.lineIndices = y.lineIndices ∧
  x.sections = y.sections ∧ x.selectedSection = y.selectedSection ∧
  x.currentLine = y.currentLine ∧ x.input = y.input ∧ x.results = y.results ∧
  x.state = y.state

/-- Concrete single-line session used by the hint counterexample. -/
def demoHello : Model := initialModel { title := [], artist := [] } [strC "Hello"]

/-- Concrete typing-state model at hint level 2, used by the hint witness. -/
def demoHintModel : Model :=
  { meta := { title := [], artist := [] }
    allLines := [strC "Hello"]
    lines := [strC "Hello"]
    lineIndices := []
    sections := parseSections [strC "Hello"]
    selectedSection := -1
    currentLine := 0
    input := []
    results := [false]
    state := GoState.typing
    hint := strC "Hello"
    hintLevel := 2 }

/-- Practice set of the score witness (the repo test: comment plus two
lines, results true and false, expected score 1/2). -/
def demoScoreLines : List Str := [strC "# Comment", strC "Line one", strC "Line two"]

/-- Result vector of the score witness. -/
def demoScoreResults : List Bool := [true, true, false]

/-- All-header practice set for the 0/0 score edge case. -/
def demoAllHeaders : List Str := [strC "# A", strC "# B"]

/-- Practice set of the g-dropping failing input. -/
def demoGLines : List Str := [strC "staying alive"]

/-- Line sequence of the section-parser witness. -/
def demoLines4 : List Str := [strC "line", strC "# H", strC "l2"]

/-- part_002 model after choosing practice mode. -/
def demoPractice : Model2 := update2 (initialModel2 demoLines) (Key.runes (strC "1"))

/-- part_002 model after choosing memory mode. -/
def demoMemory : Model2 := update2 (initialModel2 demoLines) (Key.runes (strC "2"))

/-- Model reached by pressing y (restart) in demoM2. -/
def demoRestart : Model := (update demoM2 (Key.runes (strC "y"))).getD demoM2

end Recite

namespace Recite


/-- The takeWhile of a list is never longer than the list. -/
theorem takeWhile_length_le {α : Type} (p : α → Bool) (l : List α) :
    (l.takeWhile p).length ≤ l.length := by
  induction l with
  | nil => simp
  | cons a t ih =>
    by_cases h : p a = true
    · simp only [List.takeWhile_cons_of_pos h, List.length_cons]
      omega
    · simp [List.takeWhile_cons_of_neg (by simpa using h)]

theorem leadComments_le (ls : List Str) (c : Nat) (h : c ≤ ls.length) :
    c + leadComments ls c ≤ ls.length := by
  have h1 := takeWhile_length_le isComment (ls.drop c)
  rw [List.length_drop] at h1
  unfold leadComments
  omega

theorem leadComments_zero {ls : List Str} {c : Nat} (h : leadComments ls c = 0) :
    ¬(c < ls.length ∧ isComment (ls.getD c []) = true) := by
  rintro ⟨hlt, hcom⟩
  unfold leadComments at h
  cases hd : ls.drop c with
  | nil =>
    rw [List.drop_eq_nil_iff] at hd
    omega
  | cons a as =>
    have h0 : ls[c]? = some a := by
      have h1 := List.getElem?_drop ls c 0
      rw [hd] at h1
      simpa using h1.symm
    have ha : ls.getD c [] = a := by simp [List.getD_eq_getElem?_getD, h0]
    rw [hd] at h
    rw [ha] at hcom
    simp [List.takeWhile_cons_of_pos hcom] at h

theorem leadComments_succ {ls : List Str} {c k : Nat} (h : leadComments ls c = k + 1) :
    c < ls.length ∧ isComment (ls.getD c []) = true ∧ leadComments ls (c + 1) = k := by
  unfold leadComments at h ⊢
  cases hd : ls.drop c with
  | nil =>
    rw [hd] at h
    simp at h
  | cons a as =>
    rw [hd] at h
    have hlt : c < ls.length := by
      by_contra hge
      have hnil : ls.drop c = [] := List.drop_eq_nil_of_le (by omega)
      rw [hnil] at hd
      cases hd
    have h0 : ls[c]? = some a := by
      have h1 := List.getElem?_drop ls c 0
      rw [hd] at h1
      simpa using h1.symm
    have ha : ls.getD c [] = a := by simp [List.getD_eq_getElem?_getD, h0]
    have htail : ls.drop (c + 1) = as := by
      have h2 := List.tail_drop ls c
      rw [hd] at h2
      simpa using h2.symm
    by_cases hcom : isComment a = true
    · rw [List.takeWhile_cons_of_pos hcom] at h
      simp only [List.length_cons, Nat.add_right_cancel_iff] at h
      refine ⟨hlt, by rw [ha]; exact hcom, ?_⟩
      rw [htail]
      exact h
    · rw [List.takeWhile_cons_of_neg (by simpa using hcom)] at h
      simp at h

theorem leadComments_stop (k : Nat) : ∀ (ls : List Str) (c : Nat), leadComments ls c = k →
    c + k < ls.length → isComment (ls.getD (c + k) []) = false := by
  induction k with
  | zero =>
    intro ls c h hlt
    have hz := leadComments_zero h
    simp only [Nat.add_zero] at hlt ⊢
    by_contra hcon
    simp only [Bool.not_eq_false] at hcon
    exact hz ⟨hlt, hcon⟩
  | succ k ih =>
    intro ls c h hlt
    obtain ⟨h1, h2, h3⟩ := leadComments_succ h
    have hk := ih ls (c + 1) h3 (by omega)
    have harith : c + 1 + k = c + (k + 1) := by omega
    rwa [harith] at hk

theorem markRun_length (k : Nat) : ∀ (rs : List Bool) (c : Nat),
    (markRun rs c k).length = rs.length := by
  induction k with
  | zero => intro rs c; rfl
  | succ k ih =>
    intro rs c
    show (markRun (rs.set c true) (c + 1) k).length = rs.length
    rw [ih]
    simp

/-- getD after a set within bounds. -/
theorem getD_set_bool (rs : List Bool) (c i : Nat) (b : Bool) (hc : c < rs.length) :
    (rs.set c b).getD i false = if c = i then b else rs.getD i false := by
  by_cases hci : c = i
  · subst hci
    simp [List.getD_eq_getElem?_getD, List.getElem?_set, hc]
  · simp [List.getD_eq_getElem?_getD, List.getElem?_set, hci]

theorem markRun_getD (k : Nat) : ∀ (rs : List Bool) (c i : Nat), c + k ≤ rs.length →
    (markRun rs c k).getD i false
      = if c ≤ i ∧ i < c + k then true else rs.getD i false := by
  induction k with
  | zero =>
    intro rs c i h
    show rs.getD i false = _
    split_ifs with hci
    · omega
    · rfl
  | succ k ih =>
    intro rs c i h
    have hlen : (c + 1) + k ≤ (rs.set c true).length := by simp; omega
    have hrec := ih (rs.set c true) (c + 1) i hlen
    have hset := getD_set_bool rs c i true (by omega)
    show (markRun (rs.set c true) (c + 1) k).getD i false = _
    rw [hrec, hset]
    split_ifs <;> first | rfl | omega

theorem skipCommentsLoopFuel_spec (k : Nat) : ∀ (fuel : Nat), k ≤ fuel → ∀ m : Model,
    leadComments m.lines m.currentLine = k →
    skipCommentsLoopFuel fuel m =
      { m with currentLine := m.currentLine + k, results := markRun m.results m.currentLine k } := by
  induction k with
  | zero =>
    intro fuel hf m hk
    cases fuel with
    | zero => rfl
    | succ f =>
      rw [skipCommentsLoopFuel, if_neg (leadComments_zero hk)]
      rfl
  | succ k ih =>
    intro fuel hf m hk
    obtain ⟨h1, h2, h3⟩ := leadComments_succ hk
    cases fuel with
    | zero => omega
    | succ f =>
      rw [skipCommentsLoopFuel, if_pos ⟨h1, h2⟩]
      rw [ih f (by omega) { m with results := m.results.set m.currentLine true, currentLine := m.currentLine + 1 } (by simpa using h3)]
      show ({ m with currentLine := m.currentLine + 1 + k, results := markRun (m.results.set m.currentLine true) (m.currentLine + 1) k } : Model) = { m with currentLine := m.currentLine + (k + 1), results := markRun m.results m.currentLine (k + 1) }
      have harith : m.currentLine + 1 + k = m.currentLine + (k + 1) := by omega
      rw [harith]
      rfl

theorem skipCommentsLoop_spec (k : Nat) : ∀ m : Model, leadComments m.lines m.currentLine = k →
    skipCommentsLoop m =
      { m with currentLine := m.currentLine + k, results := markRun m.results m.currentLine k } := by
  intro m hk
  have hfuel : k ≤ m.lines.length - m.currentLine := by
    have hb := takeWhile_length_le isComment (m.lines.drop m.currentLine)
    rw [List.length_drop] at hb
    unfold leadComments at hk
    omega
  exact skipCommentsLoopFuel_spec k _ hfuel m hk

/-- Full characterization of skipComments via the leading-comment count. -/
theorem skipComments_eq (m : Model) (k : Nat) (hk : leadComments m.lines m.currentLine = k) :
    skipComments m =
      if m.lines.length ≤ m.currentLine + k then
        { m with currentLine := m.currentLine + k, results := markRun m.results m.currentLine k, state := GoState.result }
      else
        { m with currentLine := m.currentLine + k, results := markRun m.results m.currentLine k } := by
  unfold skipComments
  rw [skipCommentsLoop_spec k m hk]

/-- A kept character (letter or digit) stays kept after lowercasing, and
lowercasing is idempotent on it. -/
theorem keep_toLower (r : Nat)
    (h : (isLetter r || isDigit r) = true) :
    (isLetter (toLower r) || isDigit (toLower r)) = true ∧ toLower (toLower r) = toLower r := by
  simp only [isLetter, isDigit, toLower, Bool.or_eq_true, Bool.and_eq_true,
    decide_eq_true_eq] at h ⊢
  constructor <;> split_ifs <;> omega

/-- Claim C9: normalize is total (a Lean function) and idempotent; by
definition it is the concatenation of the letters and digits of the input,
lowercased, in order, all other characters dropped. -/
theorem normalize_idempotent (s : Str) : normalize (normalize s) = normalize s := by
  induction s with
  | nil => rfl
  | cons r t ih =>
    by_cases h : (isLetter r || isDigit r) = true
    · have hk := keep_toLower r h
      have e1 : normalize (r :: t) = toLower r :: normalize t :=
        List.filterMap_cons_some (by simp [h])
      have e2 : normalize (toLower r :: normalize t)
          = toLower (toLower r) :: normalize (normalize t) :=
        List.filterMap_cons_some (by simp [hk.1])
      rw [e1, e2, hk.2, ih]
    · have e1 : normalize (r :: t) = normalize t :=
        List.filterMap_cons_none (by simp [h])
      rw [e1, ih]

theorem parseSectionsAux_chain (lines : List Str) :
    ∀ (i : Nat) (c : Section), c.startIdx ≤ i →
      chainB c.startIdx (i + lines.length) (parseSectionsAux i (some c) lines) = true := by
  induction lines with
  | nil =>
    intro i c h
    simp [parseSectionsAux, chainB, h]
  | cons line rest ih =>
    intro i c h
    by_cases hc : isComment line = true
    · have key := ih (i + 1) { name := headerText line, startIdx := i, endIdx := 0 }
        (by show i ≤ i + 1; omega)
      have harith : i + (line :: rest).length = (i + 1) + rest.length := by
        simp [List.length_cons]; omega
      rw [harith]
      simp only [parseSectionsAux, hc, if_true]
      simp only [chainB, Bool.and_eq_true, beq_iff_eq, decide_eq_true_eq]
      exact ⟨⟨trivial, h⟩, key⟩
    · have hc2 : isComment line = false := by simpa using hc
      have key := ih (i + 1) c (by omega)
      have harith : i + (line :: rest).length = (i + 1) + rest.length := by
        simp [List.length_cons]; omega
      rw [harith]
      simp only [parseSectionsAux, hc2, Bool.false_eq_true, if_false]
      exact key

theorem parseSections_chain (lines : List Str) :
    chainB 0 lines.length (parseSections lines) = true := by
  cases lines with
  | nil => rfl
  | cons line rest =>
    unfold parseSections
    by_cases hc : isComment line = true
    · have key := parseSectionsAux_chain rest 1 { name := headerText line, startIdx := 0, endIdx := 0 }
        (by show (0 : Nat) ≤ 1; omega)
      simpa [parseSectionsAux, hc, List.length_cons, Nat.add_comm] using key
    · have hc2 : isComment line = false := by simpa using hc
      have key := parseSectionsAux_chain rest 1 { name := strC "Intro", startIdx := 0, endIdx := 0 }
        (by show (0 : Nat) ≤ 1; omega)
      simpa [parseSectionsAux, hc2, List.length_cons, Nat.add_comm] using key

/-- A chain runs from a smaller bound to a larger one. -/
theorem chainB_le {a b : Nat} {secs : List Section} (h : chainB a b secs = true) : a ≤ b := by
  induction secs generalizing a with
  | nil =>
    simp only [chainB, beq_iff_eq] at h
    omega
  | cons t rest ih =>
    simp only [chainB, Bool.and_eq_true, beq_iff_eq, decide_eq_true_eq] at h
    obtain ⟨⟨ha, hse⟩, hc⟩ := h
    have := ih hc
    omega

/-- Every member of a chain lies between the chain bounds. -/
theorem chainB_mem {a b : Nat} {secs : List Section} (h : chainB a b secs = true) :
    ∀ s ∈ secs, a ≤ s.startIdx ∧ s.startIdx ≤ s.endIdx ∧ s.endIdx ≤ b := by
  induction secs generalizing a with
  | nil => intro s hs; cases hs
  | cons t rest ih =>
    simp only [chainB, Bool.and_eq_true, beq_iff_eq, decide_eq_true_eq] at h
    obtain ⟨⟨ha, hse⟩, hc⟩ := h
    intro s hs
    rcases List.mem_cons.mp hs with hs | hs
    · subst hs
      have := chainB_le hc
      omega
    · have := ih hc s hs
      omega

/-- Every point strictly below the upper bound of a chain is covered by one
of its ranges. -/
theorem chainB_cover {a b : Nat} {secs : List Section} (h : chainB a b secs = true) :
    ∀ k, a ≤ k → k < b → ∃ s ∈ secs, s.startIdx ≤ k ∧ k < s.endIdx := by
  induction secs generalizing a with
  | nil =>
    intro k hk1 hk2
    simp only [chainB, beq_iff_eq] at h
    omega
  | cons t rest ih =>
    simp only [chainB, Bool.and_eq_true, beq_iff_eq, decide_eq_true_eq] at h
    obtain ⟨⟨ha, hse⟩, hc⟩ := h
    intro k hk1 hk2
    by_cases hk : k < t.endIdx
    · exact ⟨t, by simp, by omega, hk⟩
    · obtain ⟨s, hs, h1, h2⟩ := ih hc k (by omega) hk2
      exact ⟨s, by simp [hs], h1, h2⟩

/-- The ranges of a chain are pairwise disjoint (each ends before the next
one starts). -/
theorem chainB_pairwise {a b : Nat} {secs : List Section} (h : chainB a b secs = true) :
    secs.Pairwise (fun s1 s2 => s1.endIdx ≤ s2.startIdx) := by
  induction secs generalizing a with
  | nil => exact List.Pairwise.nil
  | cons t rest ih =>
    simp only [chainB, Bool.and_eq_true, beq_iff_eq, decide_eq_true_eq] at h
    obtain ⟨⟨ha, hse⟩, hc⟩ := h
    refine List.Pairwise.cons ?_ (ih hc)
    intro s hs
    exact (chainB_mem hc s hs).1

/-- The first section emitted while a section is open closes that section. -/
theorem parseSectionsAux_head (lines : List Str) :
    ∀ (i : Nat) (c : Section), ∃ e rest,
      parseSectionsAux i (some c) lines = { c with endIdx := e } :: rest := by
  induction lines with
  | nil => intro i c; exact ⟨i, [], rfl⟩
  | cons line rest ih =>
    intro i c
    by_cases hc : isComment line = true
    · refine ⟨i,
        parseSectionsAux (i + 1) (some { name := headerText line, startIdx := i, endIdx := 0 }) rest, ?_⟩
      simp [parseSectionsAux, hc]
    · have hc2 : isComment line = false := by simpa using hc
      obtain ⟨e, tail, ht⟩ := ih (i + 1) c
      refine ⟨e, tail, ?_⟩
      simp [parseSectionsAux, hc2, ht]

/-- Claim C4: parseSections returns contiguous, pairwise-disjoint half-open
ranges whose union is exactly the interval from 0 to the number of lines;
the empty sequence yields zero sections; and when content precedes the
first header the leading section is named Intro and starts at index 0. -/
theorem parseSections_partition (lines : List Str) :
    parseSections ([] : List Str) = [] ∧
    (∀ s ∈ parseSections lines, s.startIdx ≤ s.endIdx ∧ s.endIdx ≤ lines.length) ∧
    (parseSections lines).Pairwise (fun s1 s2 => s1.endIdx ≤ s2.startIdx) ∧
    (∀ k, k < lines.length → ∃ s ∈ parseSections lines, s.startIdx ≤ k ∧ k < s.endIdx) ∧
    (∀ l ls, lines = l :: ls → isComment l = false →
      ∃ e rest, parseSections lines = { name := strC "Intro", startIdx := 0, endIdx := e } :: rest) := by
  have hch := parseSections_chain lines
  refine ⟨rfl, ?_, chainB_pairwise hch, ?_, ?_⟩
  · intro s hs
    have := chainB_mem hch s hs
    omega
  · intro k hk
    exact chainB_cover hch k (Nat.zero_le k) hk
  · intro l ls hl hni
    subst hl
    have e : parseSections (l :: ls)
        = parseSectionsAux 1 (some { name := strC "Intro", startIdx := 0, endIdx := 0 }) ls := by
      simp [parseSections, parseSectionsAux, hni]
    rw [e]
    obtain ⟨e2, rest2, hr⟩ := parseSectionsAux_head ls 1 { name := strC "Intro", startIdx := 0, endIdx := 0 }
    exact ⟨e2, rest2, hr⟩

/-- skipComments establishes the invariant from a typing-state model whose
bookkeeping is consistent. -/
theorem skipComments_inv (m : Model)
    (hall : m.allLines ≠ [])
    (hres : m.results.length = m.lines.length)
    (hcur : m.currentLine ≤ m.lines.length)
    (hmark : ∀ i, i < m.currentLine → isComment (m.lines.getD i []) = true →
      m.results.getD i false = true)
    (hst : m.state = GoState.typing) :
    Inv (skipComments m) := by
  have hkb := leadComments_le m.lines m.currentLine hcur
  have hresk : m.currentLine + leadComments m.lines m.currentLine ≤ m.results.length := by
    rw [hres]
    exact hkb
  rw [skipComments_eq m (leadComments m.lines m.currentLine) rfl]
  by_cases hend : m.lines.length ≤ m.currentLine + leadComments m.lines m.currentLine
  · rw [if_pos hend]
    refine ⟨hall, ?_, ?_, ?_, ?_, ?_, ?_⟩
    · show (markRun m.results m.currentLine _).length = m.lines.length
      rw [markRun_length]
      exact hres
    · exact hkb
    · show m.currentLine + leadComments m.lines m.currentLine = m.lines.length
        ↔ GoState.result = GoState.result
      exact ⟨fun _ => rfl, fun _ => by omega⟩
    · show (GoState.result = GoState.intro ∨ GoState.result = GoState.sectionSelect) → _
      rintro (h2 | h2) <;> exact absurd h2 (by decide)
    · show GoState.result = GoState.typing → _
      intro h2
      exact absurd h2 (by decide)
    · show ∀ i, i < m.currentLine + leadComments m.lines m.currentLine →
        isComment (m.lines.getD i []) = true →
        (markRun m.results m.currentLine (leadComments m.lines m.currentLine)).getD i false = true
      intro i hi hci
      rw [markRun_getD _ m.results m.currentLine i hresk]
      split_ifs with hcase
      · rfl
      · exact hmark i (by omega) hci
  · rw [if_neg hend]
    refine ⟨hall, ?_, ?_, ?_, ?_, ?_, ?_⟩
    · show (markRun m.results m.currentLine _).length = m.lines.length
      rw [markRun_length]
      exact hres
    · exact hkb
    · show m.currentLine + leadComments m.lines m.currentLine = m.lines.length ↔ m.state = GoState.result
      constructor
      · intro h2
        exact absurd h2 (by omega)
      · intro h2
        rw [hst] at h2
        exact absurd h2 (by decide)
    · show (m.state = GoState.intro ∨ m.state = GoState.sectionSelect) → _
      intro h2
      rw [hst] at h2
      rcases h2 with h2 | h2 <;> exact absurd h2 (by decide)
    · show m.state = GoState.typing →
        isComment (m.lines.getD (m.currentLine + leadComments m.lines m.currentLine) []) = false
      intro _
      exact leadComments_stop _ m.lines m.currentLine rfl (by omega)
    · show ∀ i, i < m.currentLine + leadComments m.lines m.currentLine →
        isComment (m.lines.getD i []) = true →
        (markRun m.results m.currentLine (leadComments m.lines m.currentLine)).getD i false = true
      intro i hi hci
      rw [markRun_getD _ m.results m.currentLine i hresk]
      split_ifs with hcase
      · rfl
      · exact hmark i (by omega) hci

/-- selectSection keeps allLines, zeroes the cursor, and sizes the fresh
result vector to the new practice set. -/
theorem selectSection_spec (m : Model) (idx : Int) :
    (selectSection m idx).allLines = m.allLines ∧
    (selectSection m idx).results.length = (selectSection m idx).lines.length ∧
    (selectSection m idx).currentLine = 0 := by
  simp only [selectSection]
  split_ifs with h
  · exact ⟨rfl, by simp, rfl⟩
  · exact ⟨rfl, by simp, rfl⟩

theorem handleIntro_inv (m : Model) (kk : Key) (hinv : Inv m)
    (hst : m.state = GoState.intro) : Inv (handleIntroInput m kk) := by
  obtain ⟨hall, hres, hcur, hiff, hsel, htyp, hmark⟩ := hinv
  obtain ⟨hc0, hla⟩ := hsel (Or.inl hst)
  have hlen : 0 < m.lines.length := by
    rw [hla]
    exact List.length_pos.mpr hall
  cases kk with
  | enter =>
    refine ⟨hall, hres, hcur, ?_, fun _ => ⟨hc0, hla⟩, ?_, hmark⟩
    · show m.currentLine = m.lines.length ↔ GoState.sectionSelect = GoState.result
      exact ⟨fun h2 => absurd h2 (by omega), fun h2 => absurd h2 (by decide)⟩
    · show GoState.sectionSelect = GoState.typing → _
      intro h2
      exact absurd h2 (by decide)
  | space =>
    refine ⟨hall, hres, hcur, ?_, fun _ => ⟨hc0, hla⟩, ?_, hmark⟩
    · show m.currentLine = m.lines.length ↔ GoState.sectionSelect = GoState.result
      exact ⟨fun h2 => absurd h2 (by omega), fun h2 => absurd h2 (by decide)⟩
    · show GoState.sectionSelect = GoState.typing → _
      intro h2
      exact absurd h2 (by decide)
  | ctrlC => exact ⟨hall, hres, hcur, hiff, hsel, htyp, hmark⟩
  | esc => exact ⟨hall, hres, hcur, hiff, hsel, htyp, hmark⟩
  | tab => exact ⟨hall, hres, hcur, hiff, hsel, htyp, hmark⟩
  | backspace => exact ⟨hall, hres, hcur, hiff, hsel, htyp, hmark⟩
  | runes rs => exact ⟨hall, hres, hcur, hiff, hsel, htyp, hmark⟩

theorem handleSectionSelect_inv (m : Model) (kk : Key) (hinv : Inv m) :
    Inv (handleSectionSelectInput m kk) := by
  cases kk with
  | runes rs =>
    show Inv (handleSectionSelectInput m (Key.runes rs))
    simp only [handleSectionSelectInput]
    split_ifs with h1 h2 h3
    · apply skipComments_inv
      · show (selectSection m (-1)).allLines ≠ []
        rw [(selectSection_spec m (-1)).1]
        exact hinv.1
      · exact (selectSection_spec m (-1)).2.1
      · show (selectSection m (-1)).currentLine ≤ (selectSection m (-1)).lines.length
        rw [(selectSection_spec m (-1)).2.2]
        omega
      · intro i hi
        rw [(selectSection_spec m (-1)).2.2] at hi
        exact absurd hi (by omega)
      · rfl
    · apply skipComments_inv
      · show (selectSection m ((rs.getD 0 0 - 49 : Nat) : Int)).allLines ≠ []
        rw [(selectSection_spec m _).1]
        exact hinv.1
      · exact (selectSection_spec m _).2.1
      · show (selectSection m ((rs.getD 0 0 - 49 : Nat) : Int)).currentLine
            ≤ (selectSection m _).lines.length
        rw [(selectSection_spec m _).2.2]
        omega
      · intro i hi
        rw [(selectSection_spec m _).2.2] at hi
        exact absurd hi (by omega)
      · rfl
    · exact hinv
    · exact hinv
  | ctrlC => exact hinv
  | esc => exact hinv
  | enter => exact hinv
  | tab => exact hinv
  | backspace => exact hinv
  | space => exact hinv

theorem handleTyping_inv (m : Model) (kk : Key) (m2 : Model) (hinv : Inv m)
    (hst : m.state = GoState.typing) (hup : handleTypingInput m kk = some m2) : Inv m2 := by
  obtain ⟨hall, hres, hcur, hiff, hsel, htyp, hmark⟩ := hinv
  have hlt : m.currentLine < m.lines.length := by
    rcases Nat.lt_or_ge m.currentLine m.lines.length with h | h
    · exact h
    · have heq : m.currentLine = m.lines.length := by omega
      have hr := hiff.mp heq
      rw [hst] at hr
      exact absurd hr (by decide)
  cases kk with
  | enter =>
    unfold handleTypingInput at hup
    obtain rfl := Option.some.inj hup
    apply skipComments_inv
    · exact hall
    · show (m.results.set m.currentLine
          (normalize m.input == normalize (m.lines.getD m.currentLine []))).length
        = m.lines.length
      simp [hres]
    · show m.currentLine + 1 ≤ m.lines.length
      omega
    · show ∀ i, i < m.currentLine + 1 → isComment (m.lines.getD i []) = true →
        (m.results.set m.currentLine
          (normalize m.input == normalize (m.lines.getD m.currentLine []))).getD i false = true
      intro i hi hci
      rw [getD_set_bool m.results m.currentLine i _ (by omega)]
      split_ifs with hcase
      · exfalso
        have hcf := htyp hst
        rw [hcase] at hcf
        rw [hci] at hcf
        cases hcf
      · exact hmark i (by omega) hci
    · exact hst
  | tab =>
    unfold handleTypingInput at hup
    by_cases h0 : m.hintLevel = 0
    · rw [if_pos h0] at hup
      cases hgw : getNextWordHint m.input (m.lines.getD m.currentLine []) with
      | none =>
        rw [hgw] at hup
        cases hup
      | some hw =>
        rw [hgw] at hup
        obtain rfl := Option.some.inj hup
        exact ⟨hall, hres, hcur, hiff, hsel, htyp, hmark⟩
    · rw [if_neg h0] at hup
      by_cases h1 : m.hintLevel = 1
      · rw [if_pos h1] at hup
        obtain rfl := Option.some.inj hup
        exact ⟨hall, hres, hcur, hiff, hsel, htyp, hmark⟩
      · rw [if_neg h1] at hup
        obtain rfl := Option.some.inj hup
        exact ⟨hall, hres, hcur, hiff, hsel, htyp, hmark⟩
  | backspace =>
    unfold handleTypingInput at hup
    obtain rfl := Option.some.inj hup
    exact ⟨hall, hres, hcur, hiff, hsel, htyp, hmark⟩
  | runes rs =>
    unfold handleTypingInput at hup
    obtain rfl := Option.some.inj hup
    exact ⟨hall, hres, hcur, hiff, hsel, htyp, hmark⟩
  | space =>
    unfold handleTypingInput at hup
    obtain rfl := Option.some.inj hup
    exact ⟨hall, hres, hcur, hiff, hsel, htyp, hmark⟩
  | ctrlC =>
    unfold handleTypingInput at hup
    obtain rfl := Option.some.inj hup
    exact ⟨hall, hres, hcur, hiff, hsel, htyp, hmark⟩
  | esc =>
    unfold handleTypingInput at hup
    obtain rfl := Option.some.inj hup
    exact ⟨hall, hres, hcur, hiff, hsel, htyp, hmark⟩

theorem handleResult_inv (m : Model) (kk : Key) (hinv : Inv m)
    (hst : m.state = GoState.result) : Inv (handleResultInput m kk) := by
  cases kk with
  | runes rs =>
    show Inv (handleResultInput m (Key.runes rs))
    simp only [handleResultInput]
    split_ifs with h1
    · apply skipComments_inv
      · exact hinv.1
      · show (List.replicate m.lines.length false).length = m.lines.length
        simp
      · show 0 ≤ m.lines.length
        omega
      · intro i hi
        exact absurd (show i < 0 from hi) (by omega)
      · rfl
    · exact hinv
  | ctrlC => exact hinv
  | esc => exact hinv
  | enter => exact hinv
  | tab => exact hinv
  | backspace => exact hinv
  | space => exact hinv

theorem update_inv (m : Model) (kk : Key) (m2 : Model) (hinv : Inv m)
    (hup : update m kk = some m2) : Inv m2 := by
  unfold update at hup
  cases hs : m.state with
  | intro =>
    rw [hs] at hup
    obtain rfl := Option.some.inj hup
    exact handleIntro_inv m kk hinv hs
  | sectionSelect =>
    rw [hs] at hup
    obtain rfl := Option.some.inj hup
    exact handleSectionSelect_inv m kk hinv
  | typing =>
    rw [hs] at hup
    exact handleTyping_inv m kk m2 hinv hs hup
  | result =>
    rw [hs] at hup
    obtain rfl := Option.some.inj hup
    exact handleResult_inv m kk hinv hs

theorem run_inv (ks : List Key) : ∀ (m m2 : Model), Inv m → run m ks = some m2 → Inv m2 := by
  induction ks with
  | nil =>
    intro m m2 hinv hrun
    obtain rfl := Option.some.inj hrun
    exact hinv
  | cons k ks ih =>
    intro m m2 hinv hrun
    unfold run at hrun
    cases hu : update m k with
    | none =>
      rw [hu] at hrun
      cases hrun
    | some mm =>
      rw [hu] at hrun
      exact ih mm m2 (update_inv m k mm hinv hu) hrun

theorem initialModel_inv (md : Metadata) (lines : List Str) (h : lines ≠ []) :
    Inv (initialModel md lines) := by
  have hlen : 0 < lines.length := List.length_pos.mpr h
  have hst : (if md.title = [] ∧ md.artist = [] then GoState.sectionSelect else GoState.intro)
        ≠ GoState.result ∧
      (if md.title = [] ∧ md.artist = [] then GoState.sectionSelect else GoState.intro)
        ≠ GoState.typing := by
    split_ifs <;> exact ⟨by decide, by decide⟩
  refine ⟨h, ?_, ?_, ?_, fun _ => ⟨rfl, rfl⟩, ?_, ?_⟩
  · show (List.replicate lines.length false).length = lines.length
    simp
  · show 0 ≤ lines.length
    omega
  · show 0 = lines.length
      ↔ (if md.title = [] ∧ md.artist = [] then GoState.sectionSelect else GoState.intro)
        = GoState.result
    exact ⟨fun h2 => absurd h2.symm (by omega), fun h2 => absurd h2 hst.1⟩
  · show (if md.title = [] ∧ md.artist = [] then GoState.sectionSelect else GoState.intro)
      = GoState.typing → _
    intro h2
    exact absurd h2 hst.2
  · intro i hi
    exact absurd (show i < 0 from hi) (by omega)

/-- Claim C3: from any session built on a non-empty line sequence, along any
event sequence that does not fault, the reached model keeps the cursor
between 0 and the practice-set length (the lower bound is inherent to the
Nat embedding of the Go int, which the code never decrements below 0), the
cursor equals the length exactly in the result state, the typing prompt
never rests on a header line, and every header line behind the cursor is
recorded as matched. -/
theorem reachable_cursor_invariant (md : Metadata) (lines : List Str) (ks : List Key) (m2 : Model)
    (hne : lines ≠ []) (hrun : run (initialModel md lines) ks = some m2) :
    (m2.currentLine ≤ m2.lines.length ∧
      (m2.currentLine = m2.lines.length ↔ m2.state = GoState.result)) ∧
    (m2.state = GoState.typing → isComment (m2.lines.getD m2.currentLine []) = false) ∧
    (∀ i, i < m2.currentLine → isComment (m2.lines.getD i []) = true →
      m2.results.getD i false = true) := by
  have h := run_inv ks (initialModel md lines) m2 (initialModel_inv md lines hne) hrun
  exact ⟨⟨h.2.2.1, h.2.2.2.1⟩, h.2.2.2.2.2.1, h.2.2.2.2.2.2⟩

/-- Witness for C3 at a concrete session and key sequence. -/
theorem reachable_cursor_invariant_witness :
    run demoInit demoKeys = some demoM2 ∧
    ((demoM2.currentLine ≤ demoM2.lines.length ∧
      (demoM2.currentLine = demoM2.lines.length ↔ demoM2.state = GoState.result)) ∧
    (demoM2.state = GoState.typing → isComment (demoM2.lines.getD demoM2.currentLine []) = false) ∧
    (∀ i, i < demoM2.currentLine → isComment (demoM2.lines.getD i []) = true →
      demoM2.results.getD i false = true)) :=
  have h1 : run demoInit demoKeys = some demoM2 := by decide
  ⟨h1, reachable_cursor_invariant { title := [], artist := [] } demoLines demoKeys demoM2
    (by decide) h1⟩


/-- Agreement (all fields but mode) is preserved by the comment-skip loop. -/
theorem agree_skipFuel2 (fuel : Nat) : ∀ x y : Model2, Agree x y →
    Agree (skipCommentsLoopFuel2 fuel x) (skipCommentsLoopFuel2 fuel y) := by
  induction fuel with
  | zero => intro x y h; exact h
  | succ f ih =>
    intro x y h
    obtain ⟨h1, h2, h3, h4, h5, h6, h7, h8, h9⟩ := h
    by_cases hc : x.currentLine < x.lines.length ∧ isComment (x.lines.getD x.currentLine []) = true
    · have hcy : y.currentLine < y.lines.length ∧ isComment (y.lines.getD y.currentLine []) = true := by
        rw [← h2, ← h6]
        exact hc
      rw [skipCommentsLoopFuel2, if_pos hc]
      rw [skipCommentsLoopFuel2, if_pos hcy]
      apply ih
      refine ⟨h1, h2, h3, h4, h5, ?_, h7, ?_, h9⟩
      · show x.currentLine + 1 = y.currentLine + 1
        rw [h6]
      · show x.results.set x.currentLine true = y.results.set y.currentLine true
        rw [h6, h8]
    · have hcy : ¬(y.currentLine < y.lines.length ∧ isComment (y.lines.getD y.currentLine []) = true) := by
        rw [← h2, ← h6]
        exact hc
      rw [skipCommentsLoopFuel2, if_neg hc]
      rw [skipCommentsLoopFuel2, if_neg hcy]
      exact ⟨h1, h2, h3, h4, h5, h6, h7, h8, h9⟩

/-- Agreement is preserved by skipComments2. -/
theorem agree_skip2 (x y : Model2) (h : Agree x y) :
    Agree (skipComments2 x) (skipComments2 y) := by
  have h2 := h.2.1
  have h6 := h.2.2.2.2.2.1
  have hfuel : y.lines.length - y.currentLine = x.lines.length - x.currentLine := by
    rw [h2, h6]
  unfold skipComments2
  rw [hfuel]
  obtain ⟨g1, g2, g3, g4, g5, g6, g7, g8, g9⟩ :=
    agree_skipFuel2 (x.lines.length - x.currentLine) x y h
  by_cases hc : (skipCommentsLoopFuel2 (x.lines.length - x.currentLine) x).lines.length
      ≤ (skipCommentsLoopFuel2 (x.lines.length - x.currentLine) x).currentLine
  · have hcy : (skipCommentsLoopFuel2 (x.lines.length - x.currentLine) y).lines.length
        ≤ (skipCommentsLoopFuel2 (x.lines.length - x.currentLine) y).currentLine := by
      rw [← g2, ← g6]
      exact hc
    rw [if_pos hc, if_pos hcy]
    exact ⟨g1, g2, g3, g4, g5, g6, g7, g8, rfl⟩
  · have hcy : ¬((skipCommentsLoopFuel2 (x.lines.length - x.currentLine) y).lines.length
        ≤ (skipCommentsLoopFuel2 (x.lines.length - x.currentLine) y).currentLine) := by
      rw [← g2, ← g6]
      exact hc
    rw [if_neg hc, if_neg hcy]
    exact ⟨g1, g2, g3, g4, g5, g6, g7, g8, g9⟩

/-- Agreement is preserved by selectSection2 at any index. -/
theorem agree_selectSection2 (x y : Model2) (idx : Int) (h : Agree x y) :
    Agree (selectSection2 x idx) (selectSection2 y idx) := by
  obtain ⟨h1, h2, h3, h4, h5, h6, h7, h8, h9⟩ := h
  simp only [selectSection2]
  by_cases hc : idx < 0 ∨ ((x.sections.length : Int) ≤ idx)
  · have hcy : idx < 0 ∨ ((y.sections.length : Int) ≤ idx) := by
      rw [← h4]
      exact hc
    rw [if_pos hc, if_pos hcy]
    exact ⟨h1, h1, rfl, h4, rfl, rfl, rfl, by rw [h1], h9⟩
  · have hcy : ¬(idx < 0 ∨ ((y.sections.length : Int) ≤ idx)) := by
      rw [← h4]
      exact hc
    rw [if_neg hc, if_neg hcy]
    exact ⟨h1, by rw [h1, h4], by rw [h1, h4], h4, rfl, rfl, rfl, by rw [h1, h4], h9⟩

/-- Agreement survives switching both models to the typing state. -/
theorem agree_setTyping (a b : Model2) (h : Agree a b) :
    Agree { a with state := GoState2.typing } { b with state := GoState2.typing } :=
  ⟨h.1, h.2.1, h.2.2.1, h.2.2.2.1, h.2.2.2.2.1, h.2.2.2.2.2.1, h.2.2.2.2.2.2.1,
    h.2.2.2.2.2.2.2.1, rfl⟩

theorem agree_handleModeSelect2 (x y : Model2) (k : Key) (h : Agree x y) :
    Agree (handleModeSelectInput2 x k) (handleModeSelectInput2 y k) := by
  obtain ⟨h1, h2, h3, h4, h5, h6, h7, h8, h9⟩ := h
  cases k with
  | runes rs =>
    simp only [handleModeSelectInput2]
    split_ifs with ha hb
    · exact ⟨h1, h2, h3, h4, h5, h6, h7, h8, rfl⟩
    · exact ⟨h1, h2, h3, h4, h5, h6, h7, h8, rfl⟩
    · exact ⟨h1, h2, h3, h4, h5, h6, h7, h8, h9⟩
  | ctrlC => exact ⟨h1, h2, h3, h4, h5, h6, h7, h8, h9⟩
  | esc => exact ⟨h1, h2, h3, h4, h5, h6, h7, h8, h9⟩
  | enter => exact ⟨h1, h2, h3, h4, h5, h6, h7, h8, h9⟩
  | tab => exact ⟨h1, h2, h3, h4, h5, h6, h7, h8, h9⟩
  | backspace => exact ⟨h1, h2, h3, h4, h5, h6, h7, h8, h9⟩
  | space => exact ⟨h1, h2, h3, h4, h5, h6, h7, h8, h9⟩

theorem agree_handleSectionSelect2 (x y : Model2) (k : Key) (h : Agree x y) :
    Agree (handleSectionSelectInput2 x k) (handleSectionSelectInput2 y k) := by
  obtain ⟨h1, h2, h3, h4, h5, h6, h7, h8, h9⟩ := h
  cases k with
  | runes rs =>
    simp only [handleSectionSelectInput2]
    by_cases ha : rs = strC "a" ∨ rs = strC "A"
    · rw [if_pos ha, if_pos ha]
      exact agree_skip2 _ _ (agree_setTyping _ _
        (agree_selectSection2 x y (-1) ⟨h1, h2, h3, h4, h5, h6, h7, h8, h9⟩))
    · rw [if_neg ha, if_neg ha]
      by_cases hb : rs.length = 1 ∧ 49 ≤ rs.getD 0 0 ∧ rs.getD 0 0 ≤ 57
      · rw [if_pos hb, if_pos hb]
        by_cases hcx : rs.getD 0 0 - 49 < x.sections.length
        · have hcy : rs.getD 0 0 - 49 < y.sections.length := by
            rw [← h4]
            exact hcx
          rw [if_pos hcx, if_pos hcy]
          exact agree_skip2 _ _ (agree_setTyping _ _
            (agree_selectSection2 x y _ ⟨h1, h2, h3, h4, h5, h6, h7, h8, h9⟩))
        · have hcy : ¬(rs.getD 0 0 - 49 < y.sections.length) := by
            rw [← h4]
            exact hcx
          rw [if_neg hcx, if_neg hcy]
          exact ⟨h1, h2, h3, h4, h5, h6, h7, h8, h9⟩
      · rw [if_neg hb, if_neg hb]
        exact ⟨h1, h2, h3, h4, h5, h6, h7, h8, h9⟩
  | ctrlC => exact ⟨h1, h2, h3, h4, h5, h6, h7, h8, h9⟩
  | esc => exact ⟨h1, h2, h3, h4, h5, h6, h7, h8, h9⟩
  | enter => exact ⟨h1, h2, h3, h4, h5, h6, h7, h8, h9⟩
  | tab => exact ⟨h1, h2, h3, h4, h5, h6, h7, h8, h9⟩
  | backspace => exact ⟨h1, h2, h3, h4, h5, h6, h7, h8, h9⟩
  | space => exact ⟨h1, h2, h3, h4, h5, h6, h7, h8, h9⟩

theorem agree_handleTyping2 (x y : Model2) (k : Key) (h : Agree x y) :
    Agree (handleTypingInput2 x k) (handleTypingInput2 y k) := by
  obtain ⟨h1, h2, h3, h4, h5, h6, h7, h8, h9⟩ := h
  cases k with
  | enter =>
    simp only [handleTypingInput2]
    apply agree_skip2
    refine ⟨h1, h2, h3, h4, h5, ?_, rfl, ?_, h9⟩
    · show x.currentLine + 1 = y.currentLine + 1
      rw [h6]
    · show x.results.set x.currentLine (normalize x.input == normalize (x.lines.getD x.currentLine []))
        = y.results.set y.currentLine (normalize y.input == normalize (y.lines.getD y.currentLine []))
      rw [h2, h6, h7, h8]
  | backspace =>
    refine ⟨h1, h2, h3, h4, h5, h6, ?_, h8, h9⟩
    show (if 0 < x.input.length then x.input.dropLast else x.input)
      = (if 0 < y.input.length then y.input.dropLast else y.input)
    rw [h7]
  | runes rs =>
    refine ⟨h1, h2, h3, h4, h5, h6, ?_, h8, h9⟩
    show x.input ++ rs = y.input ++ rs
    rw [h7]
  | space =>
    refine ⟨h1, h2, h3, h4, h5, h6, ?_, h8, h9⟩
    show x.input ++ [32] = y.input ++ [32]
    rw [h7]
  | ctrlC => exact ⟨h1, h2, h3, h4, h5, h6, h7, h8, h9⟩
  | esc => exact ⟨h1, h2, h3, h4, h5, h6, h7, h8, h9⟩
  | tab => exact ⟨h1, h2, h3, h4, h5, h6, h7, h8, h9⟩

theorem agree_handleResult2 (x y : Model2) (k : Key) (h : Agree x y) :
    Agree (handleResultInput2 x k) (handleResultInput2 y k) := by
  obtain ⟨h1, h2, h3, h4, h5, h6, h7, h8, h9⟩ := h
  cases k with
  | runes rs =>
    simp only [handleResultInput2]
    split_ifs with ha
    · apply agree_skip2
      refine ⟨h1, h2, h3, h4, h5, rfl, rfl, ?_, rfl⟩
      show List.replicate x.lines.length false = List.replicate y.lines.length false
      rw [h2]
    · exact ⟨h1, h2, h3, h4, h5, h6, h7, h8, h9⟩
  | ctrlC => exact ⟨h1, h2, h3, h4, h5, h6, h7, h8, h9⟩
  | esc => exact ⟨h1, h2, h3, h4, h5, h6, h7, h8, h9⟩
  | enter => exact ⟨h1, h2, h3, h4, h5, h6, h7, h8, h9⟩
  | tab => exact ⟨h1, h2, h3, h4, h5, h6, h7, h8, h9⟩
  | backspace => exact ⟨h1, h2, h3, h4, h5, h6, h7, h8, h9⟩
  | space => exact ⟨h1, h2, h3, h4, h5, h6, h7, h8, h9⟩

/-- Agreement is preserved by a single update2 step. -/
theorem agree_update2 (x y : Model2) (k : Key) (h : Agree x y) :
    Agree (update2 x k) (update2 y k) := by
  have h9 := h.2.2.2.2.2.2.2.2
  unfold update2
  cases hs : x.state with
  | modeSelect =>
    have hsy : y.state = GoState2.modeSelect := by rw [← h9]; exact hs
    rw [hsy]
    exact agree_handleModeSelect2 x y k h
  | sectionSelect =>
    have hsy : y.state = GoState2.sectionSelect := by rw [← h9]; exact hs
    rw [hsy]
    exact agree_handleSectionSelect2 x y k h
  | typing =>
    have hsy : y.state = GoState2.typing := by rw [← h9]; exact hs
    rw [hsy]
    exact agree_handleTyping2 x y k h
  | result =>
    have hsy : y.state = GoState2.result := by rw [← h9]; exact hs
    rw [hsy]
    exact agree_handleResult2 x y k h

/-- Agreement is preserved along any event sequence. -/
theorem agree_run2 (ks : List Key) : ∀ x y : Model2, Agree x y →
    Agree (run2 x ks) (run2 y ks) := by
  induction ks with
  | nil => intro x y h; exact h
  | cons k ks ih =>
    intro x y h
    show Agree (run2 (update2 x k) ks) (run2 (update2 y k) ks)
    exact ih _ _ (agree_update2 x y k h)

/-- Claim C10: in the mode-select variant, the chosen mode never influences
matching or control flow: two models that agree on everything but the mode
field keep identical cursor positions, result vectors, interaction states,
and scores under every input sequence.  The mode field is read only by the
View renderer. -/
theorem mode_noninterference (m m2 : Model2) (ks : List Key) (h : Agree m m2) :
    (run2 m ks).currentLine = (run2 m2 ks).currentLine ∧
    (run2 m ks).results = (run2 m2 ks).results ∧
    (run2 m ks).state = (run2 m2 ks).state ∧
    viewScore (run2 m ks).lines (run2 m ks).results
      = viewScore (run2 m2 ks).lines (run2 m2 ks).results := by
  obtain ⟨g1, g2, g3, g4, g5, g6, g7, g8, g9⟩ := agree_run2 ks m m2 h
  exact ⟨g6, g8, g9, by rw [g2, g8]⟩

/-- Witness for C10: practice and memory runs over the same session and
keys differ in mode yet agree on cursor, results, state, and score. -/
theorem mode_noninterference_witness :
    demoPractice.mode ≠ demoMemory.mode ∧
    ((run2 demoPractice demoKeys).currentLine = (run2 demoMemory demoKeys).currentLine ∧
     (run2 demoPractice demoKeys).results = (run2 demoMemory demoKeys).results ∧
     (run2 demoPractice demoKeys).state = (run2 demoMemory demoKeys).state ∧
     viewScore (run2 demoPractice demoKeys).lines (run2 demoPractice demoKeys).results
       = viewScore (run2 demoMemory demoKeys).lines (run2 demoMemory demoKeys).results) :=
  ⟨by decide, mode_noninterference demoPractice demoMemory demoKeys (by unfold Agree; decide)⟩


theorem viewScore_spec (lines : List Str) : ∀ results : List Bool, results.length = lines.length →
    viewScore lines results
      = (((List.zip lines results).filter (fun p => !isComment p.1 && p.2)).length,
         (lines.filter (fun l => !isComment l)).length) := by
  induction lines with
  | nil => intro rs h; rfl
  | cons l ls ih =>
    intro rs h
    cases rs with
    | nil => simp at h
    | cons b bs =>
      have hb := ih bs (by simpa using h)
      by_cases hc : isComment l = true
      · rw [show viewScore (l :: ls) (b :: bs) = viewScore ls bs from by simp [viewScore, hc]]
        rw [hb]
        simp [List.zip_cons_cons, List.filter_cons, hc]
      · have hc2 : isComment l = false := by simpa using hc
        rw [show viewScore (l :: ls) (b :: bs)
            = (if b then (viewScore ls bs).1 + 1 else (viewScore ls bs).1,
               (viewScore ls bs).2 + 1) from by simp [viewScore, hc2]]
        rw [hb]
        cases b with
        | true => simp [List.zip_cons_cons, List.filter_cons, hc2]
        | false => simp [List.zip_cons_cons, List.filter_cons, hc2]

theorem viewScore_allComments (ls : List Str) (h : ∀ l ∈ ls, isComment l = true) :
    ∀ rs : List Bool, viewScore ls rs = (0, 0) := by
  induction ls with
  | nil => intro rs; rfl
  | cons l ls ih =>
    intro rs
    have hc : isComment l = true := h l (by simp)
    have ihh := ih (fun x hx => h x (by simp [hx]))
    simp [viewScore, hc, ihh]

theorem leadComments_all (ls : List Str) (h : ∀ l ∈ ls, isComment l = true) :
    leadComments ls 0 = ls.length := by
  unfold leadComments
  rw [List.drop_zero]
  rw [List.takeWhile_eq_self_iff.mpr (by intro x hx; exact h x hx)]

/-- Claim C5: the result view score is the pair (count of true results at
non-header lines, count of non-header lines); a practice set consisting
entirely of header lines goes straight to the result state on selection
with the pair (0, 0).  The source prints the pair with Sprintf and performs
no division anywhere, which the pair-valued model makes literal. -/
theorem result_score_spec :
    (∀ (lines : List Str) (results : List Bool), results.length = lines.length →
      viewScore lines results
        = (((List.zip lines results).filter (fun p => !isComment p.1 && p.2)).length,
           (lines.filter (fun l => !isComment l)).length)) ∧
    (∀ m : Model, m.state = GoState.sectionSelect → m.allLines ≠ [] →
      (∀ l ∈ m.allLines, isComment l = true) →
      ∃ m2, update m (Key.runes (strC "a")) = some m2 ∧ m2.state = GoState.result ∧
        viewScore m2.lines m2.results = (0, 0)) := by
  constructor
  · exact viewScore_spec
  · intro m hst hne hcom
    have hup : update m (Key.runes (strC "a"))
        = some (handleSectionSelectInput m (Key.runes (strC "a"))) := by
      unfold update
      rw [hst]
    have hsel : handleSectionSelectInput m (Key.runes (strC "a"))
        = skipComments { selectSection m (-1) with state := GoState.typing } := by
      simp only [handleSectionSelectInput]
      rw [if_pos (Or.inl trivial)]
    refine ⟨_, hup, ?_⟩
    rw [hsel]
    set s : Model := { selectSection m (-1) with state := GoState.typing } with hs
    have hlines : s.lines = m.allLines := by
      rw [hs]
      show (selectSection m (-1)).lines = m.allLines
      simp only [selectSection]
      rw [if_pos (Or.inl (by decide))]
    have hcur : s.currentLine = 0 := by
      rw [hs]
      exact (selectSection_spec m (-1)).2.2
    have hk : leadComments s.lines s.currentLine = s.lines.length := by
      rw [hcur, hlines]
      exact leadComments_all m.allLines hcom
    have heq := skipComments_eq s s.lines.length hk
    rw [if_pos (show s.lines.length ≤ s.currentLine + s.lines.length from by
      rw [hcur]; omega)] at heq
    rw [heq]
    refine ⟨rfl, ?_⟩
    show viewScore s.lines (markRun s.results s.currentLine s.lines.length) = (0, 0)
    rw [hlines]
    exact viewScore_allComments m.allLines hcom _

/-- Witness for C5: the repo score test (comment plus two lines, results
true and false) yields the pair 1/2, and an all-header selection yields the
result state with the pair 0/0. -/
theorem result_score_spec_witness :
    viewScore demoScoreLines demoScoreResults
      = (((List.zip demoScoreLines demoScoreResults).filter (fun p => !isComment p.1 && p.2)).length,
         (demoScoreLines.filter (fun l => !isComment l)).length) ∧
    viewScore demoScoreLines demoScoreResults = (1, 2) ∧
    (∃ m2, update (initialModel { title := [], artist := [] } demoAllHeaders)
        (Key.runes (strC "a")) = some m2 ∧ m2.state = GoState.result ∧
        viewScore m2.lines m2.results = (0, 0)) :=
  ⟨result_score_spec.1 demoScoreLines demoScoreResults (by decide), by decide,
   result_score_spec.2 (initialModel { title := [], artist := [] } demoAllHeaders)
     (by decide) (by decide) (by decide)⟩

/-- Claim C6: in the result state the restart key y resets the cursor and
input, installs a fresh result vector that is true exactly on the leading
headers the restart immediately skips and false everywhere else (no value
of the previous attempt survives), returns to typing (or straight back to
result when the whole set is headers, as the spec prescribes for all-header
selections), and leaves the metadata, full line list, practice set,
sections, and selected section unchanged. -/
theorem restart_spec (m : Model) (hst : m.state = GoState.result) :
    ∃ m2, update m (Key.runes (strC "y")) = some m2 ∧
      m2.meta = m.meta ∧ m2.allLines = m.allLines ∧ m2.lines = m.lines ∧
      m2.sections = m.sections ∧ m2.selectedSection = m.selectedSection ∧
      m2.input = [] ∧ m2.currentLine = leadComments m.lines 0 ∧
      m2.results.length = m.lines.length ∧
      (∀ i, m2.results.getD i false = true ↔ i < leadComments m.lines 0) ∧
      m2.state = (if m.lines.length ≤ leadComments m.lines 0 then GoState.result
        else GoState.typing) := by
  have hup : update m (Key.runes (strC "y"))
      = some (handleResultInput m (Key.runes (strC "y"))) := by
    unfold update
    rw [hst]
  have hresetEq : handleResultInput m (Key.runes (strC "y"))
      = skipComments { m with currentLine := 0, input := [], results := List.replicate m.lines.length false, state := GoState.typing } := by
    simp only [handleResultInput]
    rw [if_pos (Or.inl trivial)]
  set s : Model := { m with currentLine := 0, input := [], results := List.replicate m.lines.length false, state := GoState.typing } with hsdef
  have hk : leadComments s.lines s.currentLine = leadComments m.lines 0 := rfl
  have hkb : leadComments m.lines 0 ≤ m.lines.length := by
    have hb := leadComments_le m.lines 0 (by omega)
    omega
  have heq := skipComments_eq s (leadComments m.lines 0) hk
  have hreslen : (markRun (List.replicate m.lines.length false) 0 (leadComments m.lines 0)).length
      = m.lines.length := by
    rw [markRun_length]
    simp
  have hresults : ∀ i,
      (markRun (List.replicate m.lines.length false) 0 (leadComments m.lines 0)).getD i false = true
        ↔ i < leadComments m.lines 0 := by
    intro i
    rw [markRun_getD _ (List.replicate m.lines.length false) 0 i
      (by simp only [List.length_replicate]; omega)]
    constructor
    · intro hx
      by_cases hcase : 0 ≤ i ∧ i < 0 + leadComments m.lines 0
      · omega
      · rw [if_neg hcase] at hx
        rw [List.getD_eq_getElem?_getD, List.getElem?_replicate] at hx
        by_cases hlt : i < m.lines.length
        · rw [if_pos hlt] at hx
          simp at hx
        · rw [if_neg hlt] at hx
          simp at hx
    · intro hx
      rw [if_pos ⟨Nat.zero_le i, by omega⟩]
  refine ⟨_, hup, ?_⟩
  rw [hresetEq, heq]
  by_cases hend : m.lines.length ≤ leadComments m.lines 0
  · rw [if_pos (show s.lines.length ≤ s.currentLine + leadComments m.lines 0 from by
      show m.lines.length ≤ 0 + leadComments m.lines 0
      omega), if_pos hend]
    exact ⟨rfl, rfl, rfl, rfl, rfl, rfl,
      by show 0 + leadComments m.lines 0 = leadComments m.lines 0; omega,
      hreslen, hresults, rfl⟩
  · rw [if_neg (show ¬(s.lines.length ≤ s.currentLine + leadComments m.lines 0) from by
      show ¬(m.lines.length ≤ 0 + leadComments m.lines 0)
      omega), if_neg hend]
    exact ⟨rfl, rfl, rfl, rfl, rfl, rfl,
      by show 0 + leadComments m.lines 0 = leadComments m.lines 0; omega,
      hreslen, hresults, rfl⟩

/-- Witness for C6: restarting a finished concrete session skips the
leading header, clears the input, and returns to typing. -/
theorem restart_spec_witness :
    update demoM2 (Key.runes (strC "y")) = some demoRestart ∧
    demoRestart.currentLine = leadComments demoM2.lines 0 ∧
    demoRestart.input = [] ∧
    demoRestart.state = GoState.typing := by
  obtain ⟨m2, hup, hmeta, hall, hlines, hsec, hss, hinput, hcur, hlen, hiff, hstate⟩ :=
    restart_spec demoM2 (by decide)
  have hm2 : m2 = demoRestart := by
    have hgd : (update demoM2 (Key.runes (strC "y"))).getD demoM2 = demoRestart := rfl
    rw [← hgd, hup]
    rfl
  subst hm2
  refine ⟨hup, hcur, hinput, ?_⟩
  rw [hstate, if_neg (by decide)]

/-- Counterexample to claim C7 as stated: in a reachable typing state whose
typed input already equals the full expected line and whose hint level is
0, a hint request is not a no-op — it sets the hint and raises the level. -/
theorem hint_full_line_counterexample :
    (run demoHello [Key.runes (strC "a"), Key.runes (strC "Hello")]).map
      (fun m => (m.state, m.input, m.lines.getD m.currentLine [], m.hintLevel))
      = some (GoState.typing, strC "Hello", strC "Hello", 0) ∧
    (run demoHello [Key.runes (strC "a"), Key.runes (strC "Hello")]).bind
      (fun m => update m Key.tab)
      ≠ run demoHello [Key.runes (strC "a"), Key.runes (strC "Hello")] := by decide

/-- Claim C7 amended: in the typing state a hint request at level 0 sets
the hint to the next-word hint and the level to 1 (even when the typed
input already equals the expected line — the source has no such no-op
guard); at level 1 it sets the hint to the expected line verbatim and the
level to 2; at level 2 it leaves the model unchanged. -/
theorem hint_ratchet (m : Model) (hst : m.state = GoState.typing) :
    (∀ w, m.hintLevel = 0 →
      getNextWordHint m.input (m.lines.getD m.currentLine []) = some w →
      update m Key.tab = some { m with hint := w, hintLevel := 1 }) ∧
    (m.hintLevel = 1 →
      update m Key.tab = some { m with hint := m.lines.getD m.currentLine [], hintLevel := 2 }) ∧
    (m.hintLevel = 2 → update m Key.tab = some m) := by
  have hupd : update m Key.tab = handleTypingInput m Key.tab := by
    unfold update
    rw [hst]
  refine ⟨?_, ?_, ?_⟩
  · intro w h0 hgw
    rw [hupd]
    simp only [handleTypingInput]
    rw [if_pos h0, hgw]
  · intro h1
    rw [hupd]
    simp only [handleTypingInput]
    rw [if_neg (by omega), if_pos h1]
  · intro h2
    rw [hupd]
    simp only [handleTypingInput]
    rw [if_neg (by omega), if_neg (by omega)]

/-- Witness for C7 (amended): a level-2 hint request on a concrete typing
model is the identity. -/
theorem hint_ratchet_witness : update demoHintModel Key.tab = some demoHintModel :=
  (hint_ratchet demoHintModel rfl).2.2 rfl

/-- Counterexample to claim C8 as stated: for typed input ending in a tab
(whitespace, but not the space character the code tests for) the source
takes the mid-word branch and returns the current word, not the word the
claim prescribes. -/
theorem nextWordHint_whitespace_counterexample :
    getNextWordHint (strC "hello\t") (strC "hello world today")
      ≠ some (claimedNextWordHint (strC "hello\t") (strC "hello world today")) ∧
    claimedNextWordHint (strC "hello\t") (strC "hello world today") = strC "world" ∧
    getNextWordHint (strC "hello\t") (strC "hello world today") = some (strC "hello") := by
  decide

/-- Claim C8 amended: the mid-word branch is guarded by "does not end in
the space character U+0020" (not any whitespace).  If the input is empty or
ends in a space, the hint is the expected word at index (number of typed
words), or empty when out of range; if the input is non-empty, does not end
in a space, and contains at least one word, the hint is the expected word
at index (number of typed words minus one), or empty when out of range
(List.getD returns the empty word in both out-of-range cases); if the
input is non-empty, does not end in a space, and is whitespace-only (zero
words), the lookup index is minus one and the code faults. -/
theorem getNextWordHint_spec (input expected : Str) :
    ((input = [] ∨ input.getLast? = some 32) →
      getNextWordHint input expected = some ((fields expected).getD (fields input).length [])) ∧
    (input ≠ [] → input.getLast? ≠ some 32 → ∀ n, (fields input).length = n + 1 →
      getNextWordHint input expected = some ((fields expected).getD n [])) ∧
    (input ≠ [] → input.getLast? ≠ some 32 → fields input = [] →
      getNextWordHint input expected = none) := by
  refine ⟨?_, ?_, ?_⟩
  · intro h
    have hcond : (input.length > 0 && !(input.getLast? == some 32)) = false := by
      rcases h with h | h
      · subst h
        rfl
      · simp [h]
    simp [getNextWordHint, hcond]
  · intro h1 h2 n hn
    have hcond : (input.length > 0 && !(input.getLast? == some 32)) = true := by
      simp only [Bool.and_eq_true, Bool.not_eq_true]
      constructor
      · simpa using List.length_pos.mpr h1
      · simp [h2]
    simp only [getNextWordHint, hcond, if_true]
    rw [hn]
  · intro h1 h2 hf
    have hcond : (input.length > 0 && !(input.getLast? == some 32)) = true := by
      simp only [Bool.and_eq_true, Bool.not_eq_true]
      constructor
      · simpa using List.length_pos.mpr h1
      · simp [h2]
    simp only [getNextWordHint, hcond, if_true]
    rw [hf]
    rfl

/-- Witness for C8 (amended): after typing "hello " against
"hello world today" the hint is the word at index 1, namely "world". -/
theorem getNextWordHint_spec_witness :
    getNextWordHint (strC "hello ") (strC "hello world today")
      = some ((fields (strC "hello world today")).getD (fields (strC "hello ")).length []) ∧
    (fields (strC "hello world today")).getD (fields (strC "hello ")).length [] = strC "world" :=
  ⟨(getNextWordHint_spec (strC "hello ") (strC "hello world today")).1 (Or.inr (by decide)),
   by decide⟩

/-- The repo test vectors of the missing `wordsMatch` hold for the
spec-modelled definition. -/
theorem wordsMatch_vectors :
    wordsMatch (strC "stayin") (strC "staying") = true ∧
    wordsMatch (strC "staying") (strC "stayin") = true ∧
    wordsMatch (strC "stayin\x27") (strC "staying") = true ∧
    wordsMatch (strC "nothin") (strC "nothing") = true ∧
    wordsMatch (strC "Hello") (strC "hello") = true ∧
    wordsMatch (strC "hello") (strC "world") = false ∧
    wordsMatch (strC "sin") (strC "sing") = false ∧
    wordsMatch (strC "in") (strC "ing") = false ∧
    wordsMatch (strC "win") (strC "wing") = false := by decide

/-- The repo test vectors of the missing `linesMatch` hold for the
spec-modelled definition. -/
theorem linesMatch_vectors :
    linesMatch (strC "stayin alive") (strC "staying alive") = true ∧
    linesMatch (strC "keepin on movin") (strC "keeping on moving") = true ∧
    linesMatch (strC "dont stop") (strC "don\x27t stop") = true ∧
    linesMatch (strC "hello") (strC "hello world") = false ∧
    linesMatch (strC "hello world") (strC "goodbye world") = false := by decide

/-- Claim C1 evidence: typing "stayin alive" against the expected line
"staying alive" (a pure per-word g-drop with normalized length at least 3)
and confirming records the line as NOT matched under the src confirm
decision (whole-line normalize equality), although the spec and the
repository tests require the missing wordsMatch/linesMatch to accept it
(last two conjuncts, spec-modelled). -/
theorem g_dropping_confirm_records_false :
    (run (initialModel { title := [], artist := [] } demoGLines)
      [Key.runes (strC "a"), Key.runes (strC "stayin alive"), Key.enter]).map
      (fun m => (m.results.getD 0 false, m.state))
      = some (false, GoState.result) ∧
    wordsMatch (strC "stayin") (strC "staying") = true ∧
    linesMatch (strC "stayin alive") (strC "staying alive") = true := by decide

/-- Claim C2 evidence: typing "a b" (two words) against the expected line
"ab" (one word) and confirming records the line as matched under the src
confirm decision (whole-line normalize equality erases word boundaries),
although the word counts differ and the spec-modelled linesMatch rejects
the pair. -/
theorem word_count_confirm_records_true :
    (run (initialModel { title := [], artist := [] } [strC "ab"])
      [Key.runes (strC "a"), Key.runes (strC "a b"), Key.enter]).map
      (fun m => m.results.getD 0 false)
      = some true ∧
    (fields (strC "a b")).length = 2 ∧
    (fields (strC "ab")).length = 1 ∧
    linesMatch (strC "a b") (strC "ab") = false := by decide

/-- Witness for C4 at the concrete input of the spec: an interior index is
covered and a leading non-header line yields the synthetic Intro section. -/
theorem parseSections_partition_witness :
    (∃ s ∈ parseSections demoLines4, s.startIdx ≤ 1 ∧ 1 < s.endIdx) ∧
    (∃ e rest, parseSections demoLines4
      = { name := strC "Intro", startIdx := 0, endIdx := e } :: rest) :=
  ⟨(parseSections_partition demoLines4).2.2.2.1 1 (by decide),
   (parseSections_partition demoLines4).2.2.2.2 (strC "line") [strC "# H", strC "l2"] rfl
     (by decide)⟩

end Recite
